import Mathlib

/-!
Verification of the `JSONSourceCode` source-code model
(`src/languages/json-source-code.js`): a shallow embedding of its data
model and operations, and proofs of the specified properties.

Conventions of the embedding:
* JavaScript `Map` objects are modelled as binding lists where the most
  recent `set` stands first, so lookups see the latest write (the
  overwrite semantics of `Map.prototype.set`).
* JavaScript exceptions are modelled with `Except String`; `null` and
  `undefined` results are modelled with `Option`.
* Strings are manipulated through their character lists so that every
  operation reduces in the kernel.
-/

set_option maxHeartbeats 1000000

/-- A position in the source text (line/column), as carried by the `loc`
fields of tokens. -/
structure Position where
  line : Nat
  column : Nat
deriving DecidableEq, Repr

/-- A source location: start and end positions of a syntax element. -/
structure SourceLoc where
  start : Position
  «end» : Position
deriving DecidableEq, Repr

/-- A token of the external tokenizer: a `type` tag, a half-open text
offset `range`, and a source location.  (The token text itself is
recovered from the document text via `range`, as `getText` does; no other
token field is read by `json-source-code.js`.) -/
structure Token where
  type : String
  range : Nat × Nat
  loc : SourceLoc
deriving DecidableEq, Repr

/-- `token.type.endsWith("Comment")`, the comment test used by
`processTokens`, `getTokenBefore` and `getTokenAfter`, computed on the
character list. -/
def isCommentType (s : String) : Bool :=
  "Comment".toList.isSuffixOf s.toList

/-- `Map.prototype.set`: the newest binding stands first. -/
def mapSet (m : List (Nat × Nat)) (k v : Nat) : List (Nat × Nat) :=
  (k, v) :: m

/-- `Map.prototype.get`: the value of the most recent binding of `k`, or
`none` when `k` was never set. -/
def mapGet (m : List (Nat × Nat)) (k : Nat) : Option Nat :=
  (m.find? (fun e => e.1 == k)).map (fun e => e.2)

/-- The result record of `processTokens`: the comment tokens in original
order, the start-offset map and the end-offset map. -/
structure ProcessedTokens where
  comments : List Token
  starts : List (Nat × Nat)
  ends : List (Nat × Nat)
deriving Repr

/-- The loop of `processTokens`, processing the remaining tokens with `i`
the array index of the first of them and `acc` the state built so far. -/
def processTokensGo (i : Nat) (acc : ProcessedTokens) : List Token → ProcessedTokens
  | [] => acc
  | t :: rest =>
    processTokensGo (i + 1)
      { comments := acc.comments ++ (if isCommentType t.type then [t] else []),
        starts := mapSet acc.starts t.range.1 i,
        ends := mapSet acc.ends t.range.2 i } rest

/-- `processTokens(tokens)` of `json-source-code.js`: one pass over the
token array that collects comment tokens and builds the start-offset and
end-offset boundary maps. -/
def processTokens (tokens : List Token) : ProcessedTokens :=
  processTokensGo 0 ⟨[], [], []⟩ tokens

theorem mapGet_mapSet_self (m : List (Nat × Nat)) (k v : Nat) :
    mapGet (mapSet m k v) k = some v := by
  simp [mapGet, mapSet]

theorem mapGet_mapSet_ne (m : List (Nat × Nat)) (k v k' : Nat) (h : k' ≠ k) :
    mapGet (mapSet m k v) k' = mapGet m k' := by
  unfold mapGet mapSet
  rw [List.find?_cons_of_neg]
  simp only [beq_iff_eq]
  exact fun he => h he.symm

/-- A key never set by the remaining loop iterations keeps its binding. -/
theorem processTokensGo_starts_untouched (l : List Token) : ∀ i acc o,
    (∀ t ∈ l, t.range.1 ≠ o) →
    mapGet (processTokensGo i acc l).starts o = mapGet acc.starts o := by
  induction l with
  | nil => intro i acc o _; rfl
  | cons t rest ih =>
    intro i acc o h
    unfold processTokensGo
    rw [ih]
    · exact mapGet_mapSet_ne _ _ _ _ (fun he => h t (by simp) he.symm)
    · intro u hu; exact h u (by simp [hu])

theorem processTokensGo_ends_untouched (l : List Token) : ∀ i acc o,
    (∀ t ∈ l, t.range.2 ≠ o) →
    mapGet (processTokensGo i acc l).ends o = mapGet acc.ends o := by
  induction l with
  | nil => intro i acc o _; rfl
  | cons t rest ih =>
    intro i acc o h
    unfold processTokensGo
    rw [ih]
    · exact mapGet_mapSet_ne _ _ _ _ (fun he => h t (by simp) he.symm)
    · intro u hu; exact h u (by simp [hu])

/-- Loop-level form of the boundary-map property for start offsets. -/
theorem processTokensGo_starts_get (l : List Token) : ∀ i acc j (hj : j < l.length),
    (∀ k, (hk : k < l.length) → j < k →
      (l.get ⟨k, hk⟩).range.1 ≠ (l.get ⟨j, hj⟩).range.1) →
    mapGet (processTokensGo i acc l).starts (l.get ⟨j, hj⟩).range.1 = some (i + j) := by
  induction l with
  | nil => intro i acc j hj; exact absurd hj (by simp)
  | cons t rest ih =>
    intro i acc j hj h
    match j with
    | 0 =>
      unfold processTokensGo
      rw [processTokensGo_starts_untouched]
      · simpa using mapGet_mapSet_self acc.starts (t.range.1) i
      · intro u hu he
        obtain ⟨⟨k, hk⟩, hget⟩ := List.mem_iff_get.mp hu
        refine h (k + 1) (by simpa using Nat.succ_lt_succ hk) (Nat.succ_pos k) ?_
        show (rest.get ⟨k, hk⟩).range.1 = t.range.1
        rw [hget, he]
        rfl
    | j' + 1 =>
      have hj' : j' < rest.length := by simpa using Nat.lt_of_succ_lt_succ hj
      unfold processTokensGo
      have hrec := ih (i + 1)
        ⟨acc.comments ++ (if isCommentType t.type then [t] else []),
         mapSet acc.starts t.range.1 i, mapSet acc.ends t.range.2 i⟩ j' hj'
        (fun k hk hlt => by
          have h2 := h (k + 1) (by simpa using Nat.succ_lt_succ hk) (Nat.succ_lt_succ hlt)
          exact h2)
      show mapGet (processTokensGo (i + 1) _ rest).starts (rest.get ⟨j', hj'⟩).range.1
        = some (i + (j' + 1))
      rw [hrec]
      congr 1
      omega

/-- Loop-level form of the boundary-map property for end offsets. -/
theorem processTokensGo_ends_get (l : List Token) : ∀ i acc j (hj : j < l.length),
    (∀ k, (hk : k < l.length) → j < k →
      (l.get ⟨k, hk⟩).range.2 ≠ (l.get ⟨j, hj⟩).range.2) →
    mapGet (processTokensGo i acc l).ends (l.get ⟨j, hj⟩).range.2 = some (i + j) := by
  induction l with
  | nil => intro i acc j hj; exact absurd hj (by simp)
  | cons t rest ih =>
    intro i acc j hj h
    match j with
    | 0 =>
      unfold processTokensGo
      rw [processTokensGo_ends_untouched]
      · simpa using mapGet_mapSet_self acc.ends (t.range.2) i
      · intro u hu he
        obtain ⟨⟨k, hk⟩, hget⟩ := List.mem_iff_get.mp hu
        refine h (k + 1) (by simpa using Nat.succ_lt_succ hk) (Nat.succ_pos k) ?_
        show (rest.get ⟨k, hk⟩).range.2 = t.range.2
        rw [hget, he]
        rfl
    | j' + 1 =>
      have hj' : j' < rest.length := by simpa using Nat.lt_of_succ_lt_succ hj
      unfold processTokensGo
      have hrec := ih (i + 1)
        ⟨acc.comments ++ (if isCommentType t.type then [t] else []),
         mapSet acc.starts t.range.1 i, mapSet acc.ends t.range.2 i⟩ j' hj'
        (fun k hk hlt => by
          have h2 := h (k + 1) (by simpa using Nat.succ_lt_succ hk) (Nat.succ_lt_succ hlt)
          exact h2)
      show mapGet (processTokensGo (i + 1) _ rest).ends (rest.get ⟨j', hj'⟩).range.2
        = some (i + (j' + 1))
      rw [hrec]
      congr 1
      omega

/-- Claim C3: for every token array and token index `i`, the two map
halves are conditioned independently, each only on its own boundary — if
no later token shares the start offset of token `i` then the start-offset
map sends that offset to `i`, and if no later token shares its end offset
then the end-offset map sends that offset to `i`; when several tokens
share a start (respectively end) offset, the corresponding half applied
to the last sharer shows that map holds the index of the later token in
array order, regardless of the token's other boundary. -/
theorem processTokens_boundary_maps (tokens : List Token) (i : Nat)
    (hi : i < tokens.length) :
    ((∀ j, (hj : j < tokens.length) → i < j →
        (tokens.get ⟨j, hj⟩).range.1 ≠ (tokens.get ⟨i, hi⟩).range.1) →
      mapGet (processTokens tokens).starts (tokens.get ⟨i, hi⟩).range.1 = some i) ∧
    ((∀ j, (hj : j < tokens.length) → i < j →
        (tokens.get ⟨j, hj⟩).range.2 ≠ (tokens.get ⟨i, hi⟩).range.2) →
      mapGet (processTokens tokens).ends (tokens.get ⟨i, hi⟩).range.2 = some i) := by
  constructor
  · intro hstart
    simpa using processTokensGo_starts_get tokens 0 ⟨[], [], []⟩ i hi hstart
  · intro hend
    simpa using processTokensGo_ends_get tokens 0 ⟨[], [], []⟩ i hi hend

/-- Payload carried by every AST node: its `type` tag and its text range.
(Other node fields — `loc`, literal values — are never read by
`json-source-code.js`.) -/
structure NodeData where
  type : String
  range : Nat × Nat
deriving DecidableEq, Repr

/-- An AST node as consumed from the external parser: a payload plus the
ordered child sequence (children in textual source order, e.g. the
`members` of an Object node, the `name` and `value` of a Member node, or
the `elements` of an Array node).  The document root is itself such a
node. -/
inductive JNode where
  | mk (data : NodeData) (children : List JNode)

mutual

def JNode.decEq : (a b : JNode) → Decidable (a = b)
  | .mk d1 cs1, .mk d2 cs2 =>
    match inferInstanceAs (Decidable (d1 = d2)) with
    | isFalse h => isFalse (by intro he; cases he; exact h rfl)
    | isTrue h1 =>
      match JNode.decEqList cs1 cs2 with
      | isFalse h => isFalse (by intro he; cases he; exact h rfl)
      | isTrue h2 => isTrue (by rw [h1, h2])

def JNode.decEqList : (a b : List JNode) → Decidable (a = b)
  | [], [] => isTrue rfl
  | [], _ :: _ => isFalse (by intro h; cases h)
  | _ :: _, [] => isFalse (by intro h; cases h)
  | a :: as, b :: bs =>
    match JNode.decEq a b with
    | isFalse h => isFalse (by intro he; cases he; exact h rfl)
    | isTrue h1 =>
      match JNode.decEqList as bs with
      | isFalse h => isFalse (by intro he; cases he; exact h rfl)
      | isTrue h2 => isTrue (by rw [h1, h2])

end

instance : DecidableEq JNode := JNode.decEq

def JNode.data : JNode → NodeData
  | .mk d _ => d

def JNode.children : JNode → List JNode
  | .mk _ cs => cs

/-- Structural induction principle for the rose-tree shaped `JNode`. -/
theorem JNode.inductionOn {motive : JNode → Prop}
    (h : ∀ d cs, (∀ c ∈ cs, motive c) → motive (.mk d cs)) : ∀ n, motive n := by
  have key : ∀ k n, sizeOf n ≤ k → motive n := by
    intro k
    induction k with
    | zero =>
      intro n hn
      cases n with
      | mk d cs => simp [JNode.mk.sizeOf_spec] at hn
    | succ k ih =>
      intro n hn
      cases n with
      | mk d cs =>
        apply h
        intro c hc
        apply ih
        have hlt := List.sizeOf_lt_of_mem hc
        have hs : sizeOf (JNode.mk d cs) = 1 + sizeOf d + sizeOf cs := by
          simp [JNode.mk.sizeOf_spec]
        omega
  intro n
  exact key (sizeOf n) n le_rfl

/-- `getText(nodeOrToken)` of the base class: the slice of the document
text covered by the element's `[start, end)` range
(`text.slice(range[0], range[1])`). -/
def getText (text : String) (range : Nat × Nat) : String :=
  ⟨(text.toList.drop range.1).take (range.2 - range.1)⟩

/-- `#getCommentValue(comment)`: the inner text of a comment token —
`getText(comment).slice(2)` for a `LineComment` (strip the leading `//`),
`getText(comment).slice(2, -2)` for a `BlockComment` (strip `/*` and
`*/`); any other comment type throws. -/
def getCommentValue (text : String) (comment : Token) : Except String String :=
  if comment.type = "LineComment" then
    .ok ⟨(getText text comment.range).toList.drop 2⟩
  else if comment.type = "BlockComment" then
    .ok ⟨(((getText text comment.range).toList).drop 2).take
          ((getText text comment.range).toList.length - 4)⟩
  else
    .error ("Unexpected comment type " ++ comment.type)

/-- The JavaScript regular-expression class `\s` (Unicode mode): the
whitespace characters recognized by the `INLINE_CONFIG` pattern. -/
def isJsWhitespace (c : Char) : Bool :=
  c == ' ' || c == '\t' || c == '\n' || c == '\x0b' || c == '\x0c' || c == '\r' ||
  c == ' ' || c == ' ' || (0x2000 ≤ c.toNat && c.toNat ≤ 0x200A) ||
  c == ' ' || c == ' ' || c == ' ' || c == ' ' ||
  c == '　' || c == '﻿'

/-- The five labels generated by the alternation of the `INLINE_CONFIG`
pattern `eslint(?:-enable|-disable(?:(?:-next)?-line)?)?`, longest first. -/
def inlineConfigLabels : List String :=
  ["eslint-disable-next-line", "eslint-disable-line", "eslint-disable",
   "eslint-enable", "eslint"]

/-- `INLINE_CONFIG.test(value)`: the comment value, after optional leading
whitespace, begins with one of the five inline-configuration labels
followed by a whitespace character or the end of the text.  (An ordered
backtracking match of the original pattern succeeds exactly when one of
the five expanded alternatives matches, so a disjunction over the labels
is equivalent.) -/
def inlineConfigTest (s : String) : Bool :=
  let cs := s.toList.dropWhile isJsWhitespace
  inlineConfigLabels.any (fun lab =>
    lab.toList.isPrefixOf cs &&
    (match cs.drop lab.toList.length with
     | [] => true
     | c :: _ => isJsWhitespace c))

/-- The state of a `JSONSourceCode` instance right after its constructor
ran: the document text, the root AST node, the token array of the AST
(`ast.tokens`, which may be absent), and the fields computed by
`processTokens(this.ast.tokens ?? [])`. -/
structure JSONSourceCode where
  text : String
  ast : JNode
  tokens? : Option (List Token)
  comments : List Token
  tokenStarts : List (Nat × Nat)
  tokenEnds : List (Nat × Nat)

/-- The constructor of `JSONSourceCode`: store text and AST, process the
token array (defaulting to `[]` when `ast.tokens` is absent) into the
comment list and the two boundary maps. -/
def JSONSourceCode.make (text : String) (ast : JNode) (tokens? : Option (List Token)) :
    JSONSourceCode :=
  let p := processTokens (tokens?.getD [])
  ⟨text, ast, tokens?, p.comments, p.starts, p.ends⟩

/-- The filter inside `getInlineConfigNodes()`: keep the comments whose
inner text passes `INLINE_CONFIG.test`; an exception thrown by
`#getCommentValue` on an unrecognized comment type propagates out of the
whole call, exactly like a throwing predicate inside `Array.filter`. -/
def inlineConfigFilter (text : String) : List Token → Except String (List Token)
  | [] => .ok []
  | c :: rest =>
    match getCommentValue text c with
    | .error e => .error e
    | .ok v =>
      match inlineConfigFilter text rest with
      | .error e => .error e
      | .ok tail => .ok (if inlineConfigTest v then c :: tail else tail)

/-- `getInlineConfigNodes()`: all comments whose value matches the
`INLINE_CONFIG` pattern.  (The source memoizes the result in
`#inlineConfigComments`; the cached value is always this list, so the
method is modelled as the pure computation.) -/
def JSONSourceCode.getInlineConfigNodes (sc : JSONSourceCode) : Except String (List Token) :=
  inlineConfigFilter sc.text sc.comments

/-- The `{label, value, justification}` record produced by the external
`ConfigCommentParser.parseDirective`.  The parser itself is an external
collaborator, so every theorem below is quantified over it. -/
structure DirectiveParts where
  label : String
  value : String
  justification : String
deriving DecidableEq, Repr

/-- A `Directive` as constructed by `getDisableDirectives`. -/
structure Directive where
  type : String
  node : Token
  value : String
  justification : String
deriving DecidableEq, Repr

/-- A problem record `{ruleId, message, loc}` as pushed by
`getDisableDirectives` and `applyInlineConfig` (`ruleId` is always
`null` there). -/
structure FileProblem where
  ruleId : Option String
  message : String
  loc : SourceLoc
deriving DecidableEq, Repr

/-- Result of `getDisableDirectives()`. -/
structure DisableDirectivesResult where
  problems : List FileProblem
  directives : List Directive
deriving DecidableEq, Repr

/-- The four labels that produce a directive, and the text of the
multi-line problem message, as written in the source. -/
def disableDirectiveLabels : List String :=
  ["eslint-disable", "eslint-enable", "eslint-disable-next-line", "eslint-disable-line"]

/-- One iteration of the `forEach` inside `getDisableDirectives`. -/
def disableDirectivesStep (pd : String → DirectiveParts) (text : String)
    (acc : DisableDirectivesResult) (comment : Token) :
    Except String DisableDirectivesResult :=
  match getCommentValue text comment with
  | .error e => .error e
  | .ok v =>
    let parts := pd v
    if parts.label = "eslint-disable-line" ∧
        comment.loc.start.line ≠ comment.loc.«end».line then
      .ok { acc with problems :=
        acc.problems ++
          [⟨none, parts.label ++ " comment should not span multiple lines.", comment.loc⟩] }
    else if parts.label = "eslint-disable" ∨ parts.label = "eslint-enable" ∨
        parts.label = "eslint-disable-next-line" ∨ parts.label = "eslint-disable-line" then
      .ok { acc with directives :=
        acc.directives ++
          [⟨⟨parts.label.toList.drop 7⟩, comment, parts.value, parts.justification⟩] }
    else
      .ok acc

/-- The `forEach` of `getDisableDirectives`, threading the accumulated
result through `disableDirectivesStep` and propagating a thrown
exception. -/
def disableDirectivesFold (pd : String → DirectiveParts) (text : String)
    (acc : DisableDirectivesResult) : List Token → Except String DisableDirectivesResult
  | [] => .ok acc
  | c :: rest =>
    match disableDirectivesStep pd text acc c with
    | .error e => .error e
    | .ok acc2 => disableDirectivesFold pd text acc2 rest

/-- `getDisableDirectives()`: parse every inline-configuration comment
with the external directive parser `pd` and collect problems and
directives. -/
def JSONSourceCode.getDisableDirectives (pd : String → DirectiveParts)
    (sc : JSONSourceCode) : Except String DisableDirectivesResult :=
  match sc.getInlineConfigNodes with
  | .error e => .error e
  | .ok nodes => disableDirectivesFold pd sc.text ⟨[], []⟩ nodes

/-- The discriminated result of the external
`ConfigCommentParser.parseJSONLikeConfig`: on success a rule-configuration
mapping, on failure the `error.message` text. -/
inductive JSONLikeParseResult where
  | ok (config : List (String × String))
  | fail (message : String)
deriving DecidableEq, Repr

/-- An entry `{config: {rules}, loc}` as pushed by `applyInlineConfig`. -/
structure InlineConfigEntry where
  rules : List (String × String)
  loc : SourceLoc
deriving DecidableEq, Repr

/-- Result of `applyInlineConfig()`. -/
structure InlineConfigResult where
  configs : List InlineConfigEntry
  problems : List FileProblem
deriving DecidableEq, Repr

/-- One iteration of the `forEach` inside `applyInlineConfig`. -/
def applyInlineConfigStep (pd : String → DirectiveParts)
    (pj : String → JSONLikeParseResult) (text : String)
    (acc : InlineConfigResult) (comment : Token) :
    Except String InlineConfigResult :=
  match getCommentValue text comment with
  | .error e => .error e
  | .ok v =>
    let parts := pd v
    if parts.label = "eslint" then
      match pj parts.value with
      | .ok config => .ok { acc with configs := acc.configs ++ [⟨config, comment.loc⟩] }
      | .fail msg => .ok { acc with problems := acc.problems ++ [⟨none, msg, comment.loc⟩] }
    else
      .ok acc

/-- The `forEach` of `applyInlineConfig`, threading the accumulated
result through `applyInlineConfigStep` and propagating a thrown
exception. -/
def applyInlineConfigFold (pd : String → DirectiveParts)
    (pj : String → JSONLikeParseResult) (text : String)
    (acc : InlineConfigResult) : List Token → Except String InlineConfigResult
  | [] => .ok acc
  | c :: rest =>
    match applyInlineConfigStep pd pj text acc c with
    | .error e => .error e
    | .ok acc2 => applyInlineConfigFold pd pj text acc2 rest

/-- `applyInlineConfig()`: parse every inline-configuration comment whose
label is exactly `eslint` with the external configuration parser `pj` and
collect entries and problems. -/
def JSONSourceCode.applyInlineConfig (pd : String → DirectiveParts)
    (pj : String → JSONLikeParseResult) (sc : JSONSourceCode) :
    Except String InlineConfigResult :=
  match sc.getInlineConfigNodes with
  | .error e => .error e
  | .ok nodes => applyInlineConfigFold pd pj sc.text ⟨[], []⟩ nodes

/-- One `{node, parent, phase}` element yielded by the external momoa
`iterator`. -/
structure IterEntry where
  node : JNode
  parent : Option JNode
  phase : String
deriving DecidableEq

mutual

/-- Modelled from the spec: the external momoa `iterator(ast)` consumed by
`traverse` is not part of this repository; per the specification the
traversal engine walks the AST depth-first, yields an `enter` entry for a
node before its children are visited and an `exit` entry after all of its
children have been visited, visits the children of a composite node in
the order of the node's child sequence, and reports each node's parent
(`none` for the root). -/
def iterSteps (parent : Option JNode) : JNode → List IterEntry
  | .mk d cs =>
    ⟨.mk d cs, parent, "enter"⟩ ::
      (iterStepsList (some (.mk d cs)) cs ++ [⟨.mk d cs, parent, "exit"⟩])

/-- Modelled from the spec: the momoa iterator entries of a child
sequence, children in order. -/
def iterStepsList (parent : Option JNode) : List JNode → List IterEntry
  | [] => []
  | c :: rest => iterSteps parent c ++ iterStepsList parent rest

end

/-- A traversal step as constructed by `traverse`: the target node, the
phase (`1` for enter, `2` for exit, as in the source), and the `args`
pair `[node, parent]` passed to `VisitNodeStep`. -/
structure JSONTraversalStep where
  target : JNode
  phase : Nat
  args : JNode × Option JNode
deriving DecidableEq

/-- The mutable state of a `JSONSourceCode` instance touched by
`traverse` and `getParent`: the `#steps` cache and the `#parents` map. -/
structure TraversalState where
  steps? : Option (List JSONTraversalStep)
  parents : List (JNode × JNode)

/-- The state right after construction: no cached steps, empty parent
map. -/
def initialTraversalState : TraversalState := ⟨none, []⟩

/-- `WeakMap.prototype.set` on the parent map: the newest binding stands
first. -/
def parentsSet (m : List (JNode × JNode)) (k v : JNode) : List (JNode × JNode) :=
  (k, v) :: m

/-- `WeakMap.prototype.get` on the parent map. -/
def parentsGet (m : List (JNode × JNode)) (k : JNode) : Option JNode :=
  (m.find? (fun e => decide (e.1 = k))).map (fun e => e.2)

/-- `getParent(node)`: look the node up in the `#parents` map. -/
def getParent (st : TraversalState) (node : JNode) : Option JNode :=
  parentsGet st.parents node

/-- The `for … of iterator(this.ast)` loop of `traverse`, carried out on
the accumulated parent map and step array: record a parent back-reference
for every entry that has a parent, and push one step per entry (phase `1`
for `"enter"`, `2` otherwise) whose `args` are `[node, parent]`. -/
def traverseLoop (acc : List (JNode × JNode) × List JSONTraversalStep) :
    List IterEntry → List (JNode × JNode) × List JSONTraversalStep
  | [] => acc
  | e :: rest =>
    traverseLoop
      ((match e.parent with
        | some p => parentsSet acc.1 e.node p
        | none => acc.1),
       acc.2 ++ [⟨e.node, if e.phase = "enter" then 1 else 2, (e.node, e.parent)⟩]) rest

/-- `traverse()`: return the cached steps when present; otherwise run the
iterator loop, cache the resulting step array and updated parent map, and
return the steps.  The returned list stands for the fresh iterator over
the cached array (`this.#steps.values()`). -/
def JSONSourceCode.traverse (sc : JSONSourceCode) (st : TraversalState) :
    List JSONTraversalStep × TraversalState :=
  match st.steps? with
  | some steps => (steps, st)
  | none =>
    let r := traverseLoop (st.parents, []) (iterSteps none sc.ast)
    (r.2, ⟨some r.2, r.1⟩)

/-- The backward comment-skipping loop of `getTokenBefore`, standing at
index `i`: a comment steps the index down, falling off the start of the
array yields `null`. -/
def skipCommentsBefore (tokens : List Token) : Nat → Option Token
  | 0 =>
    match tokens.get? 0 with
    | none => none
    | some t => if isCommentType t.type then none else some t
  | i + 1 =>
    match tokens.get? (i + 1) with
    | none => none
    | some t => if isCommentType t.type then skipCommentsBefore tokens i else some t

/-- The forward comment-skipping loop of `getTokenAfter`, walking the
token-array suffix that starts at the current index: a comment steps the
index up (consuming the suffix head), running past the end of the array
yields `null`. -/
def skipCommentsAfter : List Token → Option Token
  | [] => none
  | t :: rest => if isCommentType t.type then skipCommentsAfter rest else some t

/-- `getTokenBefore(nodeOrToken, {includeComments})`: look the element's
start offset up in the start-offset map; absence of the offset or sitting
at index `0` yields `null`; otherwise inspect the token at the previous
index (reading `this.ast.tokens`, which throws when the token array is
absent), returning it directly when comments are included and running the
backward skip loop otherwise. -/
def JSONSourceCode.getTokenBefore (sc : JSONSourceCode) (range : Nat × Nat)
    (includeComments : Bool) : Except String (Option Token) :=
  match mapGet sc.tokenStarts range.1 with
  | none => .ok none
  | some index =>
    match index with
    | 0 => .ok none
    | prev + 1 =>
      match sc.tokens? with
      | none => .error "TypeError: cannot index an absent token array"
      | some tokens =>
        if includeComments then .ok (tokens.get? prev)
        else .ok (skipCommentsBefore tokens prev)

/-- `getTokenAfter(nodeOrToken, {includeComments})`: look the element's
end offset up in the end-offset map; absence of the offset yields `null`;
otherwise read `this.ast.tokens` (throwing when absent), yield `null`
when the next index runs past the end of the array, return the token at
the next index when comments are included, and run the forward skip loop
over the suffix starting at the next index otherwise. -/
def JSONSourceCode.getTokenAfter (sc : JSONSourceCode) (range : Nat × Nat)
    (includeComments : Bool) : Except String (Option Token) :=
  match mapGet sc.tokenEnds range.2 with
  | none => .ok none
  | some index =>
    match sc.tokens? with
    | none => .error "TypeError: cannot read the length of an absent token array"
    | some tokens =>
      if index + 1 ≥ tokens.length then .ok none
      else if includeComments then .ok (tokens.get? (index + 1))
      else .ok (skipCommentsAfter (tokens.drop (index + 1)))

/-- Claim C1: calling `traverse` again on the state produced by a call
returns exactly the same step list (hence the same `{target, phase}`
elements in the same order) and leaves the state unchanged, so every
subsequent call keeps returning the cached sequence. -/
theorem traverse_idempotent (sc : JSONSourceCode) (st : TraversalState) :
    sc.traverse (sc.traverse st).2 = sc.traverse st := by
  cases st with
  | mk steps? parents =>
    cases steps? with
    | some steps => rfl
    | none => rfl

/-- Claim C10: constructing the model from an AST whose token array is
absent succeeds and treats the token array as empty — the comment list is
empty, `getInlineConfigNodes`, `getDisableDirectives` and
`applyInlineConfig` return empty results, and `getTokenBefore` /
`getTokenAfter` return `null` for every query instead of throwing. -/
theorem make_without_tokens_total (text : String) (ast : JNode)
    (pd : String → DirectiveParts) (pj : String → JSONLikeParseResult)
    (range : Nat × Nat) (includeComments : Bool) :
    (JSONSourceCode.make text ast none).comments = [] ∧
    (JSONSourceCode.make text ast none).getInlineConfigNodes = .ok [] ∧
    JSONSourceCode.getDisableDirectives pd (JSONSourceCode.make text ast none) =
      .ok ⟨[], []⟩ ∧
    JSONSourceCode.applyInlineConfig pd pj (JSONSourceCode.make text ast none) =
      .ok ⟨[], []⟩ ∧
    JSONSourceCode.getTokenBefore (JSONSourceCode.make text ast none) range
      includeComments = .ok none ∧
    JSONSourceCode.getTokenAfter (JSONSourceCode.make text ast none) range
      includeComments = .ok none := by
  refine ⟨rfl, rfl, rfl, rfl, rfl, rfl⟩

/-- The backward skip loop never returns a comment token. -/
theorem skipCommentsBefore_not_comment (tokens : List Token) :
    ∀ i t, skipCommentsBefore tokens i = some t → isCommentType t.type = false := by
  intro i
  induction i with
  | zero =>
    intro t h
    unfold skipCommentsBefore at h
    cases hg : tokens[0]? with
    | none => simp [hg] at h
    | some u =>
      simp only [List.get?_eq_getElem?, hg] at h
      by_cases hc : isCommentType u.type
      · simp [hc] at h
      · have hc2 : isCommentType u.type = false := by simpa using hc
        simp only [hc2, Bool.false_eq_true, if_false, Option.some.injEq] at h
        rw [← h]
        exact hc2
  | succ i ih =>
    intro t h
    unfold skipCommentsBefore at h
    cases hg : tokens[i + 1]? with
    | none => simp [hg] at h
    | some u =>
      simp only [List.get?_eq_getElem?, hg] at h
      by_cases hc : isCommentType u.type
      · simp only [hc, if_true] at h
        exact ih t h
      · have hc2 : isCommentType u.type = false := by simpa using hc
        simp only [hc2, Bool.false_eq_true, if_false, Option.some.injEq] at h
        rw [← h]
        exact hc2

/-- The forward skip loop never returns a comment token. -/
theorem skipCommentsAfter_not_comment :
    ∀ (l : List Token) t, skipCommentsAfter l = some t → isCommentType t.type = false := by
  intro l
  induction l with
  | nil => intro t h; exact absurd h (by simp [skipCommentsAfter])
  | cons u rest ih =>
    intro t h
    unfold skipCommentsAfter at h
    by_cases hc : isCommentType u.type
    · simp only [hc, if_true] at h
      exact ih t h
    · have hc2 : isCommentType u.type = false := by simpa using hc
      simp only [hc2, Bool.false_eq_true, if_false, Option.some.injEq] at h
      rw [← h]
      exact hc2

/-- Claim C7: with comment inclusion disabled, `getTokenBefore` and
`getTokenAfter` never return a comment token; with it enabled, when the
immediately adjacent token (previous for before, next for after) is a
comment, that comment is returned. -/
theorem getToken_comment_handling (sc : JSONSourceCode) (range : Nat × Nat) :
    (∀ t, sc.getTokenBefore range false = .ok (some t) → isCommentType t.type = false) ∧
    (∀ t, sc.getTokenAfter range false = .ok (some t) → isCommentType t.type = false) ∧
    (∀ prev tokens t, mapGet sc.tokenStarts range.1 = some (prev + 1) →
      sc.tokens? = some tokens → tokens[prev]? = some t → isCommentType t.type = true →
      sc.getTokenBefore range true = .ok (some t)) ∧
    (∀ index tokens t, mapGet sc.tokenEnds range.2 = some index →
      sc.tokens? = some tokens → tokens[index + 1]? = some t →
      isCommentType t.type = true → sc.getTokenAfter range true = .ok (some t)) := by
  refine ⟨?_, ?_, ?_, ?_⟩
  · intro t h
    unfold JSONSourceCode.getTokenBefore at h
    cases hm : mapGet sc.tokenStarts range.1 with
    | none => simp [hm] at h
    | some index =>
      simp only [hm] at h
      match index with
      | 0 => simp at h
      | prev + 1 =>
        cases htk : sc.tokens? with
        | none => simp [htk] at h
        | some tokens =>
          simp only [htk, Bool.false_eq_true, if_false, Except.ok.injEq] at h
          exact skipCommentsBefore_not_comment tokens prev t h
  · intro t h
    unfold JSONSourceCode.getTokenAfter at h
    cases hm : mapGet sc.tokenEnds range.2 with
    | none => simp [hm] at h
    | some index =>
      simp only [hm] at h
      cases htk : sc.tokens? with
      | none => simp [htk] at h
      | some tokens =>
        simp only [htk] at h
        by_cases hlen : index + 1 ≥ tokens.length
        · simp [hlen] at h
        · simp only [hlen, Bool.false_eq_true, if_false, Except.ok.injEq] at h
          exact skipCommentsAfter_not_comment _ t h
  · intro prev tokens t hm htk hget _
    unfold JSONSourceCode.getTokenBefore
    simp [hm, htk, hget]
  · intro index tokens t hm htk hget _
    unfold JSONSourceCode.getTokenAfter
    have hlt : index + 1 < tokens.length := by
      have := List.getElem?_eq_some.mp hget
      exact this.1
    simp only [hm, htk]
    rw [if_neg (by omega)]
    simp [hget]

/-- Every value of the start-offset map built by the loop is either an
inherited binding or an index of one of the processed tokens. -/
theorem processTokensGo_starts_values (l : List Token) : ∀ i acc o v,
    mapGet (processTokensGo i acc l).starts o = some v →
    mapGet acc.starts o = some v ∨ (i ≤ v ∧ v < i + l.length) := by
  induction l with
  | nil => intro i acc o v h; exact Or.inl h
  | cons t rest ih =>
    intro i acc o v h
    unfold processTokensGo at h
    rcases ih _ _ _ _ h with hacc | hrange
    · by_cases he : o = t.range.1
      · subst he
        rw [mapGet_mapSet_self] at hacc
        cases hacc
        right
        constructor
        · exact le_rfl
        · simp
      · rw [mapGet_mapSet_ne _ _ _ _ he] at hacc
        exact Or.inl hacc
    · right
      simp at hrange ⊢
      omega

theorem processTokensGo_ends_values (l : List Token) : ∀ i acc o v,
    mapGet (processTokensGo i acc l).ends o = some v →
    mapGet acc.ends o = some v ∨ (i ≤ v ∧ v < i + l.length) := by
  induction l with
  | nil => intro i acc o v h; exact Or.inl h
  | cons t rest ih =>
    intro i acc o v h
    unfold processTokensGo at h
    rcases ih _ _ _ _ h with hacc | hrange
    · by_cases he : o = t.range.2
      · subst he
        rw [mapGet_mapSet_self] at hacc
        cases hacc
        right
        constructor
        · exact le_rfl
        · simp
      · rw [mapGet_mapSet_ne _ _ _ _ he] at hacc
        exact Or.inl hacc
    · right
      simp at hrange ⊢
      omega

/-- Every start-offset map value is a valid token-array index. -/
theorem processTokens_starts_lt (ts : List Token) (o v : Nat)
    (h : mapGet (processTokens ts).starts o = some v) : v < ts.length := by
  rcases processTokensGo_starts_values ts 0 ⟨[], [], []⟩ o v h with h0 | h1
  · exact absurd h0 (by simp [mapGet])
  · omega

/-- Every end-offset map value is a valid token-array index. -/
theorem processTokens_ends_lt (ts : List Token) (o v : Nat)
    (h : mapGet (processTokens ts).ends o = some v) : v < ts.length := by
  rcases processTokensGo_ends_values ts 0 ⟨[], [], []⟩ o v h with h0 | h1
  · exact absurd h0 (by simp [mapGet])
  · omega

/-- The backward skip loop starting inside the array yields `null`
exactly when every token from the start of the array up to the starting
index is a comment. -/
theorem skipCommentsBefore_eq_none_iff (tokens : List Token) :
    ∀ i, i < tokens.length →
    (skipCommentsBefore tokens i = none ↔
      ∀ j, (hj : j < tokens.length) → j ≤ i → isCommentType tokens[j].type = true) := by
  intro i
  induction i with
  | zero =>
    intro hi
    unfold skipCommentsBefore
    simp only [List.get?_eq_getElem?, List.getElem?_eq_getElem hi]
    by_cases hc : isCommentType tokens[0].type
    · simp only [hc, if_true]
      constructor
      · intro _ j hj hj0
        have hj' : j = 0 := Nat.le_zero.mp hj0
        subst hj'
        exact hc
      · intro _; trivial
    · have hc2 : isCommentType tokens[0].type = false := by simpa using hc
      simp only [hc2, Bool.false_eq_true, if_false]
      constructor
      · intro h; exact absurd h (by simp)
      · intro h
        exact absurd (h 0 hi le_rfl) (by simp [hc2])
  | succ i ih =>
    intro hi
    unfold skipCommentsBefore
    simp only [List.get?_eq_getElem?, List.getElem?_eq_getElem hi]
    by_cases hc : isCommentType tokens[i + 1].type
    · simp only [hc, if_true]
      rw [ih (by omega)]
      constructor
      · intro h j hj hji
        by_cases hj1 : j = i + 1
        · subst hj1; exact hc
        · exact h j hj (by omega)
      · intro h j hj hji
        exact h j hj (by omega)
    · have hc2 : isCommentType tokens[i + 1].type = false := by simpa using hc
      simp only [hc2, Bool.false_eq_true, if_false]
      constructor
      · intro h; exact absurd h (by simp)
      · intro h
        exact absurd (h (i + 1) hi le_rfl) (by simp [hc2])

/-- The forward skip loop yields `null` exactly when every remaining
token is a comment. -/
theorem skipCommentsAfter_eq_none_iff :
    ∀ (l : List Token),
      (skipCommentsAfter l = none ↔ ∀ t ∈ l, isCommentType t.type = true) := by
  intro l
  induction l with
  | nil => simp [skipCommentsAfter]
  | cons u rest ih =>
    unfold skipCommentsAfter
    by_cases hc : isCommentType u.type
    · simp [hc, ih]
    · have hc2 : isCommentType u.type = false := by simpa using hc
      simp [hc2]

/-- Quantifying over the members of a dropped suffix is quantifying over
the indices from the drop point on. -/
theorem forall_mem_drop_iff (l : List Token) (n : Nat) (P : Token → Prop) :
    (∀ t ∈ l.drop n, P t) ↔ (∀ j, (hj : j < l.length) → n ≤ j → P l[j]) := by
  constructor
  · intro h j hj hn
    apply h
    have hjd : j - n < (l.drop n).length := by
      simp
      omega
    have hge : (l.drop n)[j - n] = l[j] := by
      rw [List.getElem_drop]
      congr 1
      omega
    rw [← hge]
    exact List.getElem_mem _
  · intro h t ht
    obtain ⟨k, hk, hget⟩ := List.getElem_of_mem ht
    rw [← hget, List.getElem_drop]
    have hlen : n + k < l.length := by
      simp at hk
      omega
    exact h (n + k) hlen (by omega)

/-- `getTokenBefore` on a constructed model never throws, and yields
`null` exactly in the three expected situations. -/
theorem getTokenBefore_characterization (text : String) (ast : JNode)
    (tk : Option (List Token)) (range : Nat × Nat) (incl : Bool) :
    (∃ r, (JSONSourceCode.make text ast tk).getTokenBefore range incl = .ok r) ∧
    ((JSONSourceCode.make text ast tk).getTokenBefore range incl = .ok none ↔
      mapGet (processTokens (tk.getD [])).starts range.1 = none ∨
      mapGet (processTokens (tk.getD [])).starts range.1 = some 0 ∨
      (incl = false ∧ ∃ idx,
        mapGet (processTokens (tk.getD [])).starts range.1 = some idx ∧
        ∀ j, (hj : j < (tk.getD []).length) → j < idx →
          isCommentType (tk.getD [])[j].type = true)) := by
  cases tk with
  | none =>
    refine ⟨⟨none, rfl⟩, ?_⟩
    constructor
    · intro _
      exact Or.inl rfl
    · intro _
      rfl
  | some ts =>
    simp only [Option.getD_some]
    cases hm : mapGet (processTokens ts).starts range.1 with
    | none =>
      have hres : (JSONSourceCode.make text ast (some ts)).getTokenBefore range incl
          = .ok none := by
        unfold JSONSourceCode.getTokenBefore
        show (match mapGet (processTokens ts).starts range.1 with
          | none => Except.ok none
          | some index => _) = Except.ok none
        rw [hm]
      exact ⟨⟨none, hres⟩, by simp [hres, hm]⟩
    | some idx =>
      have hidx : idx < ts.length := processTokens_starts_lt _ _ _ hm
      rcases idx with _ | prev
      · have hres : (JSONSourceCode.make text ast (some ts)).getTokenBefore range incl
            = .ok none := by
          unfold JSONSourceCode.getTokenBefore
          show (match mapGet (processTokens ts).starts range.1 with
            | none => Except.ok none
            | some index => _) = Except.ok none
          rw [hm]
        exact ⟨⟨none, hres⟩, by simp [hres, hm]⟩
      · have hprev : prev < ts.length := by omega
        cases incl with
        | true =>
          have hres : (JSONSourceCode.make text ast (some ts)).getTokenBefore range true
              = .ok (ts.get? prev) := by
            unfold JSONSourceCode.getTokenBefore
            show (match mapGet (processTokens ts).starts range.1 with
              | none => Except.ok none
              | some index => _) = _
            rw [hm]
            rfl
          have hsome : ts.get? prev = some ts[prev] := by
            simp [List.get?_eq_getElem?, List.getElem?_eq_getElem hprev]
          refine ⟨⟨some ts[prev], by rw [hres, hsome]⟩, ?_⟩
          rw [hres, hsome]
          simp [hm]
        | false =>
          have hres : (JSONSourceCode.make text ast (some ts)).getTokenBefore range false
              = .ok (skipCommentsBefore ts prev) := by
            unfold JSONSourceCode.getTokenBefore
            show (match mapGet (processTokens ts).starts range.1 with
              | none => Except.ok none
              | some index => _) = _
            rw [hm]
            rfl
          refine ⟨⟨skipCommentsBefore ts prev, hres⟩, ?_⟩
          rw [hres]
          constructor
          · intro h
            refine Or.inr (Or.inr ⟨rfl, prev + 1, rfl, ?_⟩)
            intro j hj hjlt
            exact (skipCommentsBefore_eq_none_iff ts prev hprev).mp
              (by simpa using h) j hj (by omega)
          · intro h
            rcases h with h1 | h2 | ⟨_, idx2, hidx2, hall⟩
            · exact absurd h1 (by simp)
            · exact absurd h2 (by simp)
            · have hix : idx2 = prev + 1 := (Option.some.inj hidx2).symm
              subst hix
              have hnone := (skipCommentsBefore_eq_none_iff ts prev hprev).mpr
                (fun j hj hjle => hall j hj (by omega))
              rw [hnone]

/-- `getTokenAfter` on a constructed model never throws, and yields
`null` exactly in the three mirrored situations. -/
theorem getTokenAfter_characterization (text : String) (ast : JNode)
    (tk : Option (List Token)) (range : Nat × Nat) (incl : Bool) :
    (∃ r, (JSONSourceCode.make text ast tk).getTokenAfter range incl = .ok r) ∧
    ((JSONSourceCode.make text ast tk).getTokenAfter range incl = .ok none ↔
      mapGet (processTokens (tk.getD [])).ends range.2 = none ∨
      (∃ idx, mapGet (processTokens (tk.getD [])).ends range.2 = some idx ∧
        idx + 1 ≥ (tk.getD []).length) ∨
      (incl = false ∧ ∃ idx,
        mapGet (processTokens (tk.getD [])).ends range.2 = some idx ∧
        ∀ j, (hj : j < (tk.getD []).length) → idx < j →
          isCommentType (tk.getD [])[j].type = true)) := by
  cases tk with
  | none =>
    refine ⟨⟨none, rfl⟩, ?_⟩
    constructor
    · intro _
      exact Or.inl rfl
    · intro _
      rfl
  | some ts =>
    simp only [Option.getD_some]
    cases hm : mapGet (processTokens ts).ends range.2 with
    | none =>
      have hres : (JSONSourceCode.make text ast (some ts)).getTokenAfter range incl
          = .ok none := by
        unfold JSONSourceCode.getTokenAfter
        show (match mapGet (processTokens ts).ends range.2 with
          | none => Except.ok none
          | some index => _) = Except.ok none
        rw [hm]
      refine ⟨⟨none, hres⟩, ?_⟩
      rw [hres]
      simp
    | some idx =>
      have hunf : (JSONSourceCode.make text ast (some ts)).getTokenAfter range incl
          = (if idx + 1 ≥ ts.length then Except.ok none
             else if incl = true then Except.ok (ts.get? (idx + 1))
             else Except.ok (skipCommentsAfter (ts.drop (idx + 1)))) := by
        unfold JSONSourceCode.getTokenAfter
        show (match mapGet (processTokens ts).ends range.2 with
          | none => Except.ok none
          | some index => _) = _
        rw [hm]
        rfl
      by_cases hlen : idx + 1 ≥ ts.length
      · rw [if_pos hlen] at hunf
        refine ⟨⟨none, hunf⟩, ?_⟩
        rw [hunf]
        constructor
        · intro _
          exact Or.inr (Or.inl ⟨idx, rfl, hlen⟩)
        · intro _
          rfl
      · rw [if_neg hlen] at hunf
        have hlt : idx + 1 < ts.length := by omega
        cases incl with
        | true =>
          rw [if_pos rfl] at hunf
          have hsome : ts.get? (idx + 1) = some ts[idx + 1] := by
            simp [List.get?_eq_getElem?, List.getElem?_eq_getElem hlt]
          rw [hsome] at hunf
          refine ⟨⟨some ts[idx + 1], hunf⟩, ?_⟩
          rw [hunf]
          constructor
          · intro h
            exact absurd h (by simp)
          · intro h
            rcases h with h1 | ⟨idx2, hidx2, hge⟩ | ⟨hfalse, _⟩
            · exact absurd h1 (by simp)
            · have : idx2 = idx := (Option.some.inj hidx2).symm
              subst this
              omega
            · exact absurd hfalse (by simp)
        | false =>
          rw [if_neg (by simp)] at hunf
          refine ⟨⟨skipCommentsAfter (ts.drop (idx + 1)), hunf⟩, ?_⟩
          rw [hunf]
          constructor
          · intro h
            refine Or.inr (Or.inr ⟨rfl, idx, rfl, ?_⟩)
            intro j hj hjgt
            have hall := (skipCommentsAfter_eq_none_iff (ts.drop (idx + 1))).mp
              (by simpa using h)
            exact (forall_mem_drop_iff ts (idx + 1) _).mp hall j hj (by omega)
          · intro h
            rcases h with h1 | ⟨idx2, hidx2, hge⟩ | ⟨_, idx2, hidx2, hall⟩
            · exact absurd h1 (by simp)
            · have : idx2 = idx := (Option.some.inj hidx2).symm
              subst this
              omega
            · have hix : idx2 = idx := (Option.some.inj hidx2).symm
              rw [hix] at hall
              have hnone := (skipCommentsAfter_eq_none_iff (ts.drop (idx + 1))).mpr
                ((forall_mem_drop_iff ts (idx + 1) _).mpr
                  (fun j hj hjge => hall j hj (by omega)))
              rw [hnone]

/-- Claim C8: on a constructed model, `getTokenBefore` and `getTokenAfter`
never throw — absence is signalled by an `ok none` result — and
`getTokenBefore` yields `null` exactly when the element's start offset is
unknown to the start-offset map, or the element sits at token index `0`,
or (with comments excluded) every token before it is a comment;
`getTokenAfter` is the mirror over the end-offset map and the end of the
stream. -/
theorem getToken_none_result_characterization (text : String) (ast : JNode)
    (tk : Option (List Token)) (range : Nat × Nat) (incl : Bool) :
    (∃ r, (JSONSourceCode.make text ast tk).getTokenBefore range incl = .ok r) ∧
    (∃ r, (JSONSourceCode.make text ast tk).getTokenAfter range incl = .ok r) ∧
    ((JSONSourceCode.make text ast tk).getTokenBefore range incl = .ok none ↔
      mapGet (processTokens (tk.getD [])).starts range.1 = none ∨
      mapGet (processTokens (tk.getD [])).starts range.1 = some 0 ∨
      (incl = false ∧ ∃ idx,
        mapGet (processTokens (tk.getD [])).starts range.1 = some idx ∧
        ∀ j, (hj : j < (tk.getD []).length) → j < idx →
          isCommentType (tk.getD [])[j].type = true)) ∧
    ((JSONSourceCode.make text ast tk).getTokenAfter range incl = .ok none ↔
      mapGet (processTokens (tk.getD [])).ends range.2 = none ∨
      (∃ idx, mapGet (processTokens (tk.getD [])).ends range.2 = some idx ∧
        idx + 1 ≥ (tk.getD []).length) ∨
      (incl = false ∧ ∃ idx,
        mapGet (processTokens (tk.getD [])).ends range.2 = some idx ∧
        ∀ j, (hj : j < (tk.getD []).length) → idx < j →
          isCommentType (tk.getD [])[j].type = true)) :=
  ⟨(getTokenBefore_characterization text ast tk range incl).1,
   (getTokenAfter_characterization text ast tk range incl).1,
   (getTokenBefore_characterization text ast tk range incl).2,
   (getTokenAfter_characterization text ast tk range incl).2⟩

/-- The problems contributed by one comment during
`getDisableDirectives` (empty for a comment whose value cannot be read,
a case that in fact aborts the whole call). -/
def directiveProblemsFor (pd : String → DirectiveParts) (text : String)
    (comment : Token) : List FileProblem :=
  match getCommentValue text comment with
  | .error _ => []
  | .ok v =>
    let parts := pd v
    if parts.label = "eslint-disable-line" ∧
        comment.loc.start.line ≠ comment.loc.«end».line then
      [⟨none, parts.label ++ " comment should not span multiple lines.", comment.loc⟩]
    else []

/-- The directives contributed by one comment during
`getDisableDirectives`. -/
def directivesFor (pd : String → DirectiveParts) (text : String)
    (comment : Token) : List Directive :=
  match getCommentValue text comment with
  | .error _ => []
  | .ok v =>
    let parts := pd v
    if parts.label = "eslint-disable-line" ∧
        comment.loc.start.line ≠ comment.loc.«end».line then []
    else if parts.label = "eslint-disable" ∨ parts.label = "eslint-enable" ∨
        parts.label = "eslint-disable-next-line" ∨ parts.label = "eslint-disable-line" then
      [⟨⟨parts.label.toList.drop 7⟩, comment, parts.value, parts.justification⟩]
    else []

/-- Every comment kept by the inline-config filter has a readable value
that passes the `INLINE_CONFIG` test. -/
theorem inlineConfigFilter_mem_ok (text : String) :
    ∀ (comments nodes : List Token), inlineConfigFilter text comments = .ok nodes →
    ∀ c ∈ nodes, ∃ v, getCommentValue text c = .ok v ∧ inlineConfigTest v = true := by
  intro comments
  induction comments with
  | nil =>
    intro nodes h c hc
    simp only [inlineConfigFilter, Except.ok.injEq] at h
    subst h
    exact absurd hc (by simp)
  | cons u rest ih =>
    intro nodes h c hc
    unfold inlineConfigFilter at h
    cases hv : getCommentValue text u with
    | error e => simp [hv] at h
    | ok v =>
      simp only [hv] at h
      cases htail : inlineConfigFilter text rest with
      | error e => simp [htail] at h
      | ok tail =>
        simp only [htail, Except.ok.injEq] at h
        by_cases htest : inlineConfigTest v
        · simp only [htest, if_true] at h
          subst h
          rcases List.mem_cons.mp hc with hc2 | hc2
          · subst hc2
            exact ⟨v, hv, htest⟩
          · exact ih tail htail c hc2
        · simp only [htest, Bool.false_eq_true, if_false] at h
          subst h
          exact ih tail htail c hc

/-- On a comment whose value is readable, one `getDisableDirectives`
iteration appends exactly the per-comment problems and directives. -/
theorem disableDirectivesStep_ok (pd : String → DirectiveParts) (text : String)
    (acc : DisableDirectivesResult) (c : Token) (v : String)
    (hv : getCommentValue text c = .ok v) :
    disableDirectivesStep pd text acc c =
      .ok ⟨acc.problems ++ directiveProblemsFor pd text c,
           acc.directives ++ directivesFor pd text c⟩ := by
  unfold disableDirectivesStep directiveProblemsFor directivesFor
  rw [hv]
  by_cases h1 : (pd v).label = "eslint-disable-line" ∧
      c.loc.start.line ≠ c.loc.«end».line
  · simp [h1]
  · by_cases h2 : (pd v).label = "eslint-disable" ∨ (pd v).label = "eslint-enable" ∨
        (pd v).label = "eslint-disable-next-line" ∨ (pd v).label = "eslint-disable-line"
    · simp [h1, h2]
    · simp [h1, h2]

/-- The `getDisableDirectives` loop concatenates the per-comment problem
and directive lists of the processed comments, in order. -/
theorem disableDirectivesFold_eq (pd : String → DirectiveParts) (text : String) :
    ∀ (nodes : List Token) (acc : DisableDirectivesResult),
    (∀ c ∈ nodes, ∃ v, getCommentValue text c = .ok v) →
    disableDirectivesFold pd text acc nodes =
      .ok ⟨acc.problems ++ nodes.flatMap (directiveProblemsFor pd text),
           acc.directives ++ nodes.flatMap (directivesFor pd text)⟩ := by
  intro nodes
  induction nodes with
  | nil =>
    intro acc _
    simp [disableDirectivesFold]
  | cons c rest ih =>
    intro acc hall
    obtain ⟨v, hv⟩ := hall c (by simp)
    unfold disableDirectivesFold
    rw [disableDirectivesStep_ok pd text acc c v hv]
    show disableDirectivesFold pd text
      ⟨acc.problems ++ directiveProblemsFor pd text c,
       acc.directives ++ directivesFor pd text c⟩ rest = _
    rw [ih _ (fun u hu => hall u (by simp [hu]))]
    simp [List.flatMap_cons, List.append_assoc]

/-- The inline-config entries contributed by one comment during
`applyInlineConfig`. -/
def inlineConfigsFor (pd : String → DirectiveParts)
    (pj : String → JSONLikeParseResult) (text : String) (comment : Token) :
    List InlineConfigEntry :=
  match getCommentValue text comment with
  | .error _ => []
  | .ok v =>
    let parts := pd v
    if parts.label = "eslint" then
      match pj parts.value with
      | .ok config => [⟨config, comment.loc⟩]
      | .fail _ => []
    else []

/-- The problems contributed by one comment during `applyInlineConfig`. -/
def inlineConfigProblemsFor (pd : String → DirectiveParts)
    (pj : String → JSONLikeParseResult) (text : String) (comment : Token) :
    List FileProblem :=
  match getCommentValue text comment with
  | .error _ => []
  | .ok v =>
    let parts := pd v
    if parts.label = "eslint" then
      match pj parts.value with
      | .ok _ => []
      | .fail msg => [⟨none, msg, comment.loc⟩]
    else []

/-- On a comment whose value is readable, one `applyInlineConfig`
iteration appends exactly the per-comment configs and problems. -/
theorem applyInlineConfigStep_ok (pd : String → DirectiveParts)
    (pj : String → JSONLikeParseResult) (text : String)
    (acc : InlineConfigResult) (c : Token) (v : String)
    (hv : getCommentValue text c = .ok v) :
    applyInlineConfigStep pd pj text acc c =
      .ok ⟨acc.configs ++ inlineConfigsFor pd pj text c,
           acc.problems ++ inlineConfigProblemsFor pd pj text c⟩ := by
  unfold applyInlineConfigStep inlineConfigsFor inlineConfigProblemsFor
  rw [hv]
  by_cases h1 : (pd v).label = "eslint"
  · cases hp : pj (pd v).value with
    | ok config => simp [h1, hp]
    | fail msg => simp [h1, hp]
  · simp [h1]

/-- The `applyInlineConfig` loop concatenates the per-comment config and
problem lists of the processed comments, in order. -/
theorem applyInlineConfigFold_eq (pd : String → DirectiveParts)
    (pj : String → JSONLikeParseResult) (text : String) :
    ∀ (nodes : List Token) (acc : InlineConfigResult),
    (∀ c ∈ nodes, ∃ v, getCommentValue text c = .ok v) →
    applyInlineConfigFold pd pj text acc nodes =
      .ok ⟨acc.configs ++ nodes.flatMap (inlineConfigsFor pd pj text),
           acc.problems ++ nodes.flatMap (inlineConfigProblemsFor pd pj text)⟩ := by
  intro nodes
  induction nodes with
  | nil =>
    intro acc _
    simp [applyInlineConfigFold]
  | cons c rest ih =>
    intro acc hall
    obtain ⟨v, hv⟩ := hall c (by simp)
    unfold applyInlineConfigFold
    rw [applyInlineConfigStep_ok pd pj text acc c v hv]
    show applyInlineConfigFold pd pj text
      ⟨acc.configs ++ inlineConfigsFor pd pj text c,
       acc.problems ++ inlineConfigProblemsFor pd pj text c⟩ rest = _
    rw [ih _ (fun u hu => hall u (by simp [hu]))]
    simp [List.flatMap_cons, List.append_assoc]

/-- Claim C5: for every directive parser, every inline-configuration
comment whose parsed label is one of the four disable/enable labels (with
start and end lines coinciding in the `eslint-disable-line` case)
contributes exactly one Directive whose type is the label with the
`eslint-` prefix stripped, carrying the raw value and justification, to
the concatenated `getDisableDirectives` output; a comment whose label is
exactly `eslint` contributes none. -/
theorem getDisableDirectives_per_comment (pd : String → DirectiveParts)
    (sc : JSONSourceCode) (nodes : List Token) (c : Token) (v : String)
    (hnodes : sc.getInlineConfigNodes = .ok nodes) (hc : c ∈ nodes)
    (hv : getCommentValue sc.text c = .ok v) :
    JSONSourceCode.getDisableDirectives pd sc =
      .ok ⟨nodes.flatMap (directiveProblemsFor pd sc.text),
           nodes.flatMap (directivesFor pd sc.text)⟩ ∧
    ((pd v).label = "eslint-disable" ∨ (pd v).label = "eslint-enable" ∨
      (pd v).label = "eslint-disable-next-line" ∨ (pd v).label = "eslint-disable-line" →
      ((pd v).label = "eslint-disable-line" → c.loc.start.line = c.loc.«end».line) →
      directivesFor pd sc.text c =
        [⟨⟨(pd v).label.toList.drop 7⟩, c, (pd v).value, (pd v).justification⟩]) ∧
    ((pd v).label = "eslint" → directivesFor pd sc.text c = []) := by
  refine ⟨?_, ?_, ?_⟩
  · unfold JSONSourceCode.getDisableDirectives
    rw [hnodes]
    exact disableDirectivesFold_eq pd sc.text nodes ⟨[], []⟩
      (fun u hu => (inlineConfigFilter_mem_ok sc.text sc.comments nodes hnodes u hu).imp
        (fun v hv2 => hv2.1))
  · intro h4 hsame
    unfold directivesFor
    simp only [hv]
    have h1 : ¬((pd v).label = "eslint-disable-line" ∧
        c.loc.start.line ≠ c.loc.«end».line) := by
      rintro ⟨hdl, hne⟩
      exact hne (hsame hdl)
    rw [if_neg h1, if_pos h4]
  · intro hlabel
    unfold directivesFor
    simp only [hv]
    have h1 : ¬((pd v).label = "eslint-disable-line" ∧
        c.loc.start.line ≠ c.loc.«end».line) := by
      rintro ⟨hdl, _⟩
      rw [hlabel] at hdl
      exact absurd hdl (by decide)
    have h2 : ¬((pd v).label = "eslint-disable" ∨ (pd v).label = "eslint-enable" ∨
        (pd v).label = "eslint-disable-next-line" ∨
        (pd v).label = "eslint-disable-line") := by
      rw [hlabel]
      decide
    rw [if_neg h1, if_neg h2]

/-- Claim C6: an `eslint-disable-line` comment whose start and end lines
differ contributes zero Directives and exactly one problem — `ruleId`
null, located at the comment, with the multi-line message — to the
concatenated `getDisableDirectives` output. -/
theorem getDisableDirectives_multiline_problem (pd : String → DirectiveParts)
    (sc : JSONSourceCode) (nodes : List Token) (c : Token) (v : String)
    (hnodes : sc.getInlineConfigNodes = .ok nodes) (hc : c ∈ nodes)
    (hv : getCommentValue sc.text c = .ok v)
    (hlabel : (pd v).label = "eslint-disable-line")
    (hline : c.loc.start.line ≠ c.loc.«end».line) :
    JSONSourceCode.getDisableDirectives pd sc =
      .ok ⟨nodes.flatMap (directiveProblemsFor pd sc.text),
           nodes.flatMap (directivesFor pd sc.text)⟩ ∧
    directivesFor pd sc.text c = [] ∧
    directiveProblemsFor pd sc.text c =
      [⟨none, "eslint-disable-line comment should not span multiple lines.", c.loc⟩] := by
  refine ⟨?_, ?_, ?_⟩
  · unfold JSONSourceCode.getDisableDirectives
    rw [hnodes]
    exact disableDirectivesFold_eq pd sc.text nodes ⟨[], []⟩
      (fun u hu => (inlineConfigFilter_mem_ok sc.text sc.comments nodes hnodes u hu).imp
        (fun v hv2 => hv2.1))
  · unfold directivesFor
    simp only [hv]
    rw [if_pos ⟨hlabel, hline⟩]
  · unfold directiveProblemsFor
    simp only [hv]
    rw [if_pos ⟨hlabel, hline⟩, hlabel]
    rfl

/-- Claim C4: for every parser pair, `applyInlineConfig` is the
concatenation of per-comment results, so one malformed comment never
prevents the processing of any other; a comment with label `eslint` whose
value parses contributes exactly one config entry carrying the parsed
rules and the comment location, and one whose value fails to parse
contributes exactly one problem with `ruleId` null, the parser's error
message and the comment location. -/
theorem applyInlineConfig_per_comment (pd : String → DirectiveParts)
    (pj : String → JSONLikeParseResult) (sc : JSONSourceCode)
    (nodes : List Token) (c : Token) (v : String)
    (hnodes : sc.getInlineConfigNodes = .ok nodes) (hc : c ∈ nodes)
    (hv : getCommentValue sc.text c = .ok v)
    (hlabel : (pd v).label = "eslint") :
    JSONSourceCode.applyInlineConfig pd pj sc =
      .ok ⟨nodes.flatMap (inlineConfigsFor pd pj sc.text),
           nodes.flatMap (inlineConfigProblemsFor pd pj sc.text)⟩ ∧
    (∀ config, pj (pd v).value = .ok config →
      inlineConfigsFor pd pj sc.text c = [⟨config, c.loc⟩] ∧
      inlineConfigProblemsFor pd pj sc.text c = []) ∧
    (∀ msg, pj (pd v).value = .fail msg →
      inlineConfigsFor pd pj sc.text c = [] ∧
      inlineConfigProblemsFor pd pj sc.text c = [⟨none, msg, c.loc⟩]) := by
  refine ⟨?_, ?_, ?_⟩
  · unfold JSONSourceCode.applyInlineConfig
    rw [hnodes]
    exact applyInlineConfigFold_eq pd pj sc.text nodes ⟨[], []⟩
      (fun u hu => (inlineConfigFilter_mem_ok sc.text sc.comments nodes hnodes u hu).imp
        (fun v hv2 => hv2.1))
  · intro config hp
    constructor
    · unfold inlineConfigsFor
      simp only [hv]
      rw [if_pos hlabel, hp]
    · unfold inlineConfigProblemsFor
      simp only [hv]
      rw [if_pos hlabel, hp]
  · intro msg hp
    constructor
    · unfold inlineConfigsFor
      simp only [hv]
      rw [if_pos hlabel, hp]
    · unfold inlineConfigProblemsFor
      simp only [hv]
      rw [if_pos hlabel, hp]

mutual

/-- All nodes of a subtree: the node itself followed by the nodes of its
children, depth-first in child order. -/
def allNodes : JNode → List JNode
  | .mk d cs => .mk d cs :: allNodesList cs

def allNodesList : List JNode → List JNode
  | [] => []
  | c :: rest => allNodes c ++ allNodesList rest

end

mutual

/-- The `{target, phase}` projection of the traversal step sequence of a
subtree: enter the node, the projected steps of its children in child
order, exit the node (phase `1` = enter, `2` = exit). -/
def tpSteps : JNode → List (JNode × Nat)
  | .mk d cs => (.mk d cs, 1) :: (tpStepsList cs ++ [(.mk d cs, 2)])

def tpStepsList : List JNode → List (JNode × Nat)
  | [] => []
  | c :: rest => tpSteps c ++ tpStepsList rest

end

theorem iterStepsList_eq_flatMap (parent : Option JNode) (cs : List JNode) :
    iterStepsList parent cs = cs.flatMap (iterSteps parent) := by
  induction cs with
  | nil => rfl
  | cons c rest ih => simp [iterStepsList, List.flatMap_cons, ih]

theorem allNodesList_eq_flatMap (cs : List JNode) :
    allNodesList cs = cs.flatMap allNodes := by
  induction cs with
  | nil => rfl
  | cons c rest ih => simp [allNodesList, List.flatMap_cons, ih]

theorem tpStepsList_eq_flatMap (cs : List JNode) :
    tpStepsList cs = cs.flatMap tpSteps := by
  induction cs with
  | nil => rfl
  | cons c rest ih => simp [tpStepsList, List.flatMap_cons, ih]

/-- Projecting the iterator entries of a subtree to `{target, phase}`
gives `tpSteps`, for any ambient parent. -/
theorem iterSteps_proj (n : JNode) : ∀ parent,
    (iterSteps parent n).map
      (fun e => (e.node, if e.phase = "enter" then 1 else 2)) = tpSteps n := by
  induction n using JNode.inductionOn with
  | h d cs ih =>
    intro parent
    unfold iterSteps tpSteps
    rw [iterStepsList_eq_flatMap, tpStepsList_eq_flatMap]
    simp only [List.map_cons, List.map_append, List.map_flatMap]
    rw [List.flatMap_congr (fun c hc => ih c hc (some (JNode.mk d cs)))]
    simp

/-- The steps accumulated by the traversal loop are the accumulated
prefix followed by one step per entry, in entry order. -/
theorem traverseLoop_snd : ∀ (entries : List IterEntry) ps acc,
    (traverseLoop (ps, acc) entries).2 = acc ++ entries.map
      (fun e => (⟨e.node, if e.phase = "enter" then 1 else 2,
        (e.node, e.parent)⟩ : JSONTraversalStep)) := by
  intro entries
  induction entries with
  | nil => intro ps acc; simp [traverseLoop]
  | cons e rest ih =>
    intro ps acc
    unfold traverseLoop
    rw [ih]
    simp [List.append_assoc]

/-- The `{target, phase}` projection of a full `traverse` run is exactly
the recursive enter/children/exit sequence of the root. -/
theorem traverse_proj (sc : JSONSourceCode) :
    (sc.traverse initialTraversalState).1.map (fun s => (s.target, s.phase))
      = tpSteps sc.ast := by
  unfold JSONSourceCode.traverse initialTraversalState
  show ((traverseLoop ([], []) (iterSteps none sc.ast)).2).map
    (fun s => (s.target, s.phase)) = tpSteps sc.ast
  rw [traverseLoop_snd]
  rw [List.nil_append, List.map_map]
  exact iterSteps_proj sc.ast none

/-- Enter-step multiplicity in the projected sequence equals node
multiplicity in the tree. -/
theorem tpSteps_count_enter (n : JNode) : ∀ root,
    (tpSteps root).count (n, 1) = (allNodes root).count n := by
  have hlist : ∀ (l : List JNode),
      (∀ c ∈ l, (tpSteps c).count (n, 1) = (allNodes c).count n) →
      (l.flatMap tpSteps).count (n, 1) = (l.flatMap allNodes).count n := by
    intro l
    induction l with
    | nil => intro _; simp
    | cons c rest ihl =>
      intro h
      simp only [List.flatMap_cons, List.count_append]
      rw [h c (by simp), ihl (fun u hu => h u (by simp [hu]))]
  intro root
  induction root using JNode.inductionOn with
  | h d cs ih =>
    unfold tpSteps allNodes
    rw [tpStepsList_eq_flatMap, allNodesList_eq_flatMap]
    simp only [List.count_cons, List.count_append]
    rw [hlist cs ih]
    by_cases hn2 : n = JNode.mk d cs
    · simp [hn2]
    · have hn3 : JNode.mk d cs ≠ n := fun h => hn2 h.symm
      simp [hn2, hn3]

/-- Exit-step multiplicity in the projected sequence equals node
multiplicity in the tree. -/
theorem tpSteps_count_exit (n : JNode) : ∀ root,
    (tpSteps root).count (n, 2) = (allNodes root).count n := by
  have hlist : ∀ (l : List JNode),
      (∀ c ∈ l, (tpSteps c).count (n, 2) = (allNodes c).count n) →
      (l.flatMap tpSteps).count (n, 2) = (l.flatMap allNodes).count n := by
    intro l
    induction l with
    | nil => intro _; simp
    | cons c rest ihl =>
      intro h
      simp only [List.flatMap_cons, List.count_append]
      rw [h c (by simp), ihl (fun u hu => h u (by simp [hu]))]
  intro root
  induction root using JNode.inductionOn with
  | h d cs ih =>
    unfold tpSteps allNodes
    rw [tpStepsList_eq_flatMap, allNodesList_eq_flatMap]
    simp only [List.count_cons, List.count_append]
    rw [hlist cs ih]
    by_cases hn2 : n = JNode.mk d cs
    · simp [hn2]
    · have hn3 : JNode.mk d cs ≠ n := fun h => hn2 h.symm
      simp [hn2, hn3]

/-- The projected step block of every node of the tree stands contiguous
inside the projected step sequence of the whole tree. -/
theorem tpSteps_infix (n : JNode) : ∀ root, n ∈ allNodes root →
    ∃ pre post, tpSteps root = pre ++ tpSteps n ++ post := by
  intro root
  induction root using JNode.inductionOn with
  | h d cs ih =>
    intro hmem
    unfold allNodes at hmem
    rcases List.mem_cons.mp hmem with heq | hrest
    · refine ⟨[], [], ?_⟩
      rw [heq]
      simp
    · rw [allNodesList_eq_flatMap] at hrest
      obtain ⟨c, hcs, hnc⟩ := List.mem_flatMap.mp hrest
      obtain ⟨pre, post, hsplit⟩ := ih c hcs hnc
      obtain ⟨l1, l2, hcs_split⟩ := List.append_of_mem hcs
      refine ⟨(JNode.mk d cs, 1) :: (tpStepsList l1 ++ pre),
              post ++ tpStepsList l2 ++ [(JNode.mk d cs, 2)], ?_⟩
      have h1 : tpStepsList cs = tpStepsList l1 ++ (tpSteps c ++ tpStepsList l2) := by
        rw [hcs_split, tpStepsList_eq_flatMap, tpStepsList_eq_flatMap,
          tpStepsList_eq_flatMap]
        simp [List.flatMap_append, List.flatMap_cons, List.append_assoc]
      have hroot : tpSteps (JNode.mk d cs)
          = (JNode.mk d cs, 1) :: (tpStepsList cs ++ [(JNode.mk d cs, 2)]) := rfl
      rw [hroot, h1, hsplit]
      simp [List.append_assoc]

/-- Claim C2: every node of the AST contributes a contiguous block
`enter, children blocks in child order, exit` to the traversal sequence,
and its enter and exit steps each appear in the whole sequence with
exactly the node's multiplicity in the tree (in particular once, for a
node occurring once). -/
theorem traverse_step_structure (sc : JSONSourceCode) (n : JNode)
    (hn : n ∈ allNodes sc.ast) :
    tpSteps n = (n, 1) :: (n.children.flatMap tpSteps ++ [(n, 2)]) ∧
    (∃ pre post, (sc.traverse initialTraversalState).1.map
        (fun s => (s.target, s.phase)) = pre ++ tpSteps n ++ post) ∧
    ((sc.traverse initialTraversalState).1.map
        (fun s => (s.target, s.phase))).count (n, 1) = (allNodes sc.ast).count n ∧
    ((sc.traverse initialTraversalState).1.map
        (fun s => (s.target, s.phase))).count (n, 2) = (allNodes sc.ast).count n := by
  refine ⟨?_, ?_, ?_, ?_⟩
  · cases n with
    | mk d cs =>
      unfold tpSteps
      rw [tpStepsList_eq_flatMap]
      rfl
  · rw [traverse_proj]
    exact tpSteps_infix n sc.ast hn
  · rw [traverse_proj]
    exact tpSteps_count_enter n sc.ast
  · rw [traverse_proj]
    exact tpSteps_count_exit n sc.ast

/-- For every node `p` of the tree and every child `c` of `p`, the
iterator yields an enter entry for `c` whose parent is `p`. -/
theorem mem_iterSteps_child (p : JNode) : ∀ root parent, p ∈ allNodes root →
    ∀ c ∈ p.children, (⟨c, some p, "enter"⟩ : IterEntry) ∈ iterSteps parent root := by
  intro root
  induction root using JNode.inductionOn with
  | h d cs ih =>
    intro parent hmem c hc
    unfold allNodes at hmem
    rcases List.mem_cons.mp hmem with heq | hrest
    · have hcs : c ∈ cs := by
        rw [heq] at hc
        exact hc
      unfold iterSteps
      refine List.mem_cons_of_mem _ (List.mem_append_left _ ?_)
      rw [iterStepsList_eq_flatMap]
      refine List.mem_flatMap.mpr ⟨c, hcs, ?_⟩
      cases c with
      | mk d2 cs2 =>
        unfold iterSteps
        rw [heq]
        exact List.mem_cons_self _ _
    · rw [allNodesList_eq_flatMap] at hrest
      obtain ⟨c0, hc0, hpc0⟩ := List.mem_flatMap.mp hrest
      have hin := ih c0 hc0 (some (JNode.mk d cs)) hpc0 c hc
      unfold iterSteps
      refine List.mem_cons_of_mem _ (List.mem_append_left _ ?_)
      rw [iterStepsList_eq_flatMap]
      exact List.mem_flatMap.mpr ⟨c0, hc0, hin⟩

/-- A key present in the parent map stays present through the traversal
loop. -/
theorem traverseLoop_fst_preserve : ∀ (entries : List IterEntry) ps acc (k : JNode),
    (parentsGet ps k).isSome = true →
    (parentsGet (traverseLoop (ps, acc) entries).1 k).isSome = true := by
  intro entries
  induction entries with
  | nil => intro ps acc k h; exact h
  | cons e rest ih =>
    intro ps acc k h
    unfold traverseLoop
    cases hp : e.parent with
    | none =>
      simp only [hp]
      exact ih ps _ k h
    | some q =>
      simp only [hp]
      refine ih _ _ k ?_
      unfold parentsGet parentsSet
      unfold parentsGet at h
      cases hf : List.find? (fun x => decide (x.1 = k)) ps with
      | none => rw [hf] at h; exact absurd h (by simp)
      | some b =>
        by_cases hek : e.node = k
        · simp [List.find?_cons, hek]
        · simp [List.find?_cons, hek, hf]

/-- Processing an entry that carries a parent makes its node's parent
lookup succeed for the rest of the loop. -/
theorem traverseLoop_fst_mem : ∀ (entries : List IterEntry) ps acc (e : IterEntry) (q : JNode),
    e ∈ entries → e.parent = some q →
    (parentsGet (traverseLoop (ps, acc) entries).1 e.node).isSome = true := by
  intro entries
  induction entries with
  | nil => intro ps acc e q h _; exact absurd h (by simp)
  | cons f rest ih =>
    intro ps acc e q hmem hq
    rcases List.mem_cons.mp hmem with heq | hrest
    · subst heq
      unfold traverseLoop
      rw [hq]
      refine traverseLoop_fst_preserve rest _ _ e.node ?_
      unfold parentsGet parentsSet
      simp [List.find?_cons]
    · unfold traverseLoop
      cases hp : f.parent with
      | none => exact ih _ _ e q hrest hq
      | some r => exact ih _ _ e q hrest hq

/-- Claim C9: before any traversal call `getParent` is undefined for
every node; after a traversal call it is defined for every non-root node
of the AST (every node that is the child of some node of the tree);
the parent map is populated only by `traverse`. -/
theorem getParent_population (sc : JSONSourceCode) (n : JNode) :
    getParent initialTraversalState n = none ∧
    (∀ p, p ∈ allNodes sc.ast → n ∈ p.children →
      (getParent (sc.traverse initialTraversalState).2 n).isSome = true) := by
  constructor
  · rfl
  · intro p hp hnp
    have hentry := mem_iterSteps_child p sc.ast none hp n hnp
    have hstate : (sc.traverse initialTraversalState).2.parents
        = (traverseLoop (([] : List (JNode × JNode)), ([] : List JSONTraversalStep))
            (iterSteps none sc.ast)).1 := rfl
    unfold getParent
    rw [hstate]
    exact traverseLoop_fst_mem _ _ _ ⟨n, some p, "enter"⟩ p hentry rfl

/-- Concrete document for the single-line disable-directive scenario. -/
def wText : String := "// eslint-disable-line no-empty-keys -- reason"

def wLoc : SourceLoc := ⟨⟨1, 0⟩, ⟨1, 46⟩⟩

def wComment : Token := ⟨"LineComment", (0, 46), wLoc⟩

def wValue : String := " eslint-disable-line no-empty-keys -- reason"

def wAst : JNode := .mk ⟨"Document", (0, 0)⟩ [.mk ⟨"String", (0, 2)⟩ []]

def wNode : JNode := .mk ⟨"String", (0, 2)⟩ []

def wSC : JSONSourceCode := JSONSourceCode.make wText wAst (some [wComment])

/-- A directive parser behaving as the external one does on the scenario
comment. -/
def wPd : String → DirectiveParts :=
  fun _ => ⟨"eslint-disable-line", "no-empty-keys", "reason"⟩

/-- Concrete document for the multi-line block-comment scenario. -/
def wText2 : String := "/* eslint-disable-line no-empty-keys */"

def wLoc2 : SourceLoc := ⟨⟨1, 0⟩, ⟨2, 10⟩⟩

def wComment2 : Token := ⟨"BlockComment", (0, 39), wLoc2⟩

def wValue2 : String := " eslint-disable-line no-empty-keys "

def wSC2 : JSONSourceCode := JSONSourceCode.make wText2 wAst (some [wComment2])

/-- Concrete document for the inline rule-configuration scenario. -/
def wText3 : String := "// eslint no-empty-keys: error"

def wLoc3 : SourceLoc := ⟨⟨1, 0⟩, ⟨1, 30⟩⟩

def wComment3 : Token := ⟨"LineComment", (0, 30), wLoc3⟩

def wValue3 : String := " eslint no-empty-keys: error"

def wSC3 : JSONSourceCode := JSONSourceCode.make wText3 wAst (some [wComment3])

def wPd3 : String → DirectiveParts := fun _ => ⟨"eslint", "no-empty-keys: error", ""⟩

def wPj : String → JSONLikeParseResult := fun _ => .ok [("no-empty-keys", "error")]

/-- A second token after the scenario comment, for token navigation. -/
def wColon : Token := ⟨"Colon", (46, 47), ⟨⟨1, 46⟩, ⟨1, 47⟩⟩⟩

def wTokens7 : List Token := [wComment, wColon]

def wSC7 : JSONSourceCode := JSONSourceCode.make wText wAst (some wTokens7)

theorem traverse_step_structure_witness :
    wNode ∈ allNodes wSC.ast ∧
    ((wSC.traverse initialTraversalState).1.map
      (fun s => (s.target, s.phase))).count (wNode, 1) = (allNodes wSC.ast).count wNode :=
  ⟨by decide, (traverse_step_structure wSC wNode (by decide)).2.2.1⟩

/-- Tokens whose boundaries are shared on one side only: `wTb` shares its
start offset with the earlier `wTa` (so the start map holds the later
index 1) while the later `wTc` shares its end offset with `wTb` — the
start half still applies at index 1, and the end half at index 2 shows
later-token-wins for the shared end offset. -/
def wTa : Token := ⟨"String", (0, 5), wLoc⟩

def wTb : Token := ⟨"String", (0, 7), wLoc⟩

def wTc : Token := ⟨"String", (6, 7), wLoc⟩

theorem processTokens_boundary_maps_witness :
    mapGet (processTokens [wTa, wTb, wTc]).starts
        ([wTa, wTb, wTc].get ⟨1, by decide⟩).range.1 = some 1 ∧
    mapGet (processTokens [wTa, wTb, wTc]).ends
        ([wTa, wTb, wTc].get ⟨2, by decide⟩).range.2 = some 2 :=
  ⟨(processTokens_boundary_maps [wTa, wTb, wTc] 1 (by decide)).1 (by decide),
   (processTokens_boundary_maps [wTa, wTb, wTc] 2 (by decide)).2 (by decide)⟩

theorem applyInlineConfig_per_comment_witness :
    wSC3.getInlineConfigNodes = .ok [wComment3] ∧
    inlineConfigsFor wPd3 wPj wSC3.text wComment3
      = [⟨[("no-empty-keys", "error")], wComment3.loc⟩] ∧
    inlineConfigProblemsFor wPd3 wPj wSC3.text wComment3 = [] :=
  ⟨rfl,
   ((applyInlineConfig_per_comment wPd3 wPj wSC3 [wComment3] wComment3 wValue3
      rfl (by decide) rfl rfl).2.1 [("no-empty-keys", "error")] rfl).1,
   ((applyInlineConfig_per_comment wPd3 wPj wSC3 [wComment3] wComment3 wValue3
      rfl (by decide) rfl rfl).2.1 [("no-empty-keys", "error")] rfl).2⟩

theorem getDisableDirectives_per_comment_witness :
    wSC.getInlineConfigNodes = .ok [wComment] ∧
    directivesFor wPd wSC.text wComment
      = [⟨"disable-line", wComment, "no-empty-keys", "reason"⟩] :=
  ⟨rfl,
   (getDisableDirectives_per_comment wPd wSC [wComment] wComment wValue
      rfl (by decide) rfl).2.1 (Or.inr (Or.inr (Or.inr rfl))) (fun _ => rfl)⟩

theorem getDisableDirectives_multiline_problem_witness :
    wSC2.getInlineConfigNodes = .ok [wComment2] ∧
    directivesFor wPd wSC2.text wComment2 = [] ∧
    directiveProblemsFor wPd wSC2.text wComment2
      = [⟨none, "eslint-disable-line comment should not span multiple lines.",
          wComment2.loc⟩] :=
  ⟨rfl,
   (getDisableDirectives_multiline_problem wPd wSC2 [wComment2] wComment2 wValue2
      rfl (by decide) rfl rfl (by decide)).2.1,
   (getDisableDirectives_multiline_problem wPd wSC2 [wComment2] wComment2 wValue2
      rfl (by decide) rfl rfl (by decide)).2.2⟩

theorem getToken_comment_handling_witness :
    mapGet wSC7.tokenStarts 46 = some 1 ∧
    wSC7.getTokenBefore (46, 47) true = .ok (some wComment) :=
  ⟨rfl,
   (getToken_comment_handling wSC7 (46, 47)).2.2.1 0 wTokens7 wComment rfl rfl rfl rfl⟩

theorem getToken_none_result_characterization_witness :
    ∃ r, (JSONSourceCode.make wText wAst (some [wComment])).getTokenBefore (0, 46) false
      = .ok r :=
  (getToken_none_result_characterization wText wAst (some [wComment]) (0, 46) false).1

theorem getParent_population_witness :
    wAst ∈ allNodes wSC.ast ∧ wNode ∈ wAst.children ∧
    (getParent (wSC.traverse initialTraversalState).2 wNode).isSome = true :=
  ⟨by decide, by decide,
   (getParent_population wSC wNode).2 wAst (by decide) (by decide)⟩
